import Mathlib

/-!
Shallow embedding of the swagger-document maintenance scripts of the
repository (backend/docs and backend/scripts).  Python dictionaries are
modelled as insertion-ordered association lists over string keys:
`alookup` is dictionary lookup, `aset` is the dictionary assignment
`d[k] = v` (replace in place when the key exists, append otherwise, as
CPython ordered dicts do), and `adel` is `del d[k]`.  Operation bodies,
schema values and other uninterpreted payloads are a type parameter.
-/

namespace CMS

/-- Dictionary of the HTTP methods of one path item: method name mapped to
an uninterpreted operation payload. -/
abbrev Methods (α : Type) : Type := List (String × α)

/-- The paths dictionary of a swagger document. -/
abbrev Paths (α : Type) : Type := List (String × Methods α)

/-- Dictionary lookup: value of the first entry with the given key. -/
def alookup {α : Type} : List (String × α) → String → Option α
  | [], _ => none
  | (k, v) :: rest, key => if k = key then some v else alookup rest key

/-- Dictionary membership test, the Python `key in d`. -/
def acontains {α : Type} (l : List (String × α)) (key : String) : Bool :=
  (alookup l key).isSome

/-- Dictionary assignment `d[key] = v`: replace the first entry with that
key in place, append at the end when the key is absent. -/
def aset {α : Type} : List (String × α) → String → α → List (String × α)
  | [], key, v => [(key, v)]
  | (k, w) :: rest, key, v =>
    if k = key then (key, v) :: rest else (k, w) :: aset rest key v

/-- Dictionary deletion `del d[key]` (keys of a dict are unique, so
removing every entry with the key has the same meaning). -/
def adel {α : Type} : List (String × α) → String → List (String × α)
  | [], _ => []
  | (k, w) :: rest, key =>
    if k = key then adel rest key else (k, w) :: adel rest key

/-- Value stored for method `m` of path `p` in a paths dictionary. -/
def lookupPM {α : Type} (l : Paths α) (p m : String) : Option α :=
  match alookup l p with
  | some ms => alookup ms m
  | none => none

/-- Presence of method `m` at path `p`. -/
def hasPM {α : Type} (l : Paths α) (p m : String) : Bool :=
  (lookupPM l p m).isSome

/-- Membership of a (path, method) pair in a recorded conflict list.  The
scripts record one entry per conflicting path carrying the list of
conflicting method names (rendered as a string in the source; the pair
structure is what the entry denotes). -/
def conflMem : List (String × List String) → String → String → Bool
  | [], _, _ => false
  | (q, l) :: rest, p, m => (decide (q = p) && l.contains m) || conflMem rest p m

/-- Flattening of a recorded conflict list into (path, method) pairs. -/
def conflPairs : List (String × List String) → List (String × String)
  | [] => []
  | (p, l) :: rest => l.map (fun m => (p, m)) ++ conflPairs rest

/-- The (path, method) pairs of a patch paths dictionary. -/
def patchPairs {α : Type} : Paths α → List (String × String)
  | [] => []
  | (p, ms) :: rest => ms.map (fun mv => (p, mv.1)) ++ patchPairs rest

/-- Inner loop of `merge_swagger_endpoints` / `add_assets_settings` for one
shared path: each patch method absent from the snapshot `bms` of the base
methods is assigned into the accumulating dictionary and counted; methods
present in the snapshot are skipped. -/
def mergeMethodsAux {α : Type} (bms : Methods α) :
    Methods α → Methods α → Methods α × Nat
  | acc, [] => (acc, 0)
  | acc, (m, v) :: rest =>
    if acontains bms m then mergeMethodsAux bms acc rest
    else
      let r := mergeMethodsAux bms (aset acc m v) rest
      (r.1, r.2 + 1)

/-- Merging the patch methods `ms` into base methods `bms` (membership is
checked against the snapshot of base methods taken before the loop, as the
source does with `existing_methods`). -/
def mergeMethods {α : Type} (bms ms : Methods α) : Methods α × Nat :=
  mergeMethodsAux bms bms ms

/-- Conflicting method names of one shared path: the patch methods already
present in the base methods (the source forms the set intersection of the
key sets; this keeps the patch-order list of those names). -/
def conflictKeys {α : Type} (bms : Methods α) : Methods α → List String
  | [] => []
  | (m, _) :: rest =>
    if acontains bms m then m :: conflictKeys bms rest
    else conflictKeys bms rest

/-- Result of the merge loop: the updated paths dictionary, the recorded
conflicts and the count of methods added (`merged_count` / `added_count` in
the source). -/
structure MergeOut (α : Type) where
  paths : Paths α
  conflicts : List (String × List String)
  added : Nat
deriving DecidableEq

/-- The merge loop of `merge_swagger_endpoints` lines 92-115 (identical in
`add_assets_settings` lines 91-118): for each patch path in order, if it is
present in the current document the non-conflicting methods are assigned
in and a conflict entry is recorded when the conflicting set is non-empty;
if absent the whole path item is assigned and all its methods counted. -/
def mergeRun {α : Type} : Paths α → Paths α → MergeOut α
  | cur, [] => ⟨cur, [], 0⟩
  | cur, (p, ms) :: rest =>
    match alookup cur p with
    | some bms =>
      let confl := conflictKeys bms ms
      let mm := mergeMethods bms ms
      let r := mergeRun (aset cur p mm.1) rest
      ⟨r.paths, (if confl.isEmpty then [] else [(p, confl)]) ++ r.conflicts,
        mm.2 + r.added⟩
    | none =>
      let r := mergeRun (aset cur p ms) rest
      ⟨r.paths, r.conflicts, ms.length + r.added⟩

/-- Conflict list produced when every patch method already exists at its
path: one entry per patch path with a non-empty method dictionary, listing
all its method names. -/
def allConf {α : Type} : Paths α → List (String × List String)
  | [] => []
  | (p, ms) :: rest =>
    (if (ms.map Prod.fst).isEmpty then [] else [(p, ms.map Prod.fst)]) ++
      allConf rest

/-- The Python `s.startswith(pre)`, computed on character lists. -/
def hasPre (pre s : String) : Bool :=
  pre.toList.isPrefixOf s.toList

/-- Substring test of a character-list pattern, the Python `pat in s`. -/
def listHasSub (pat : List Char) : List Char → Bool
  | [] => pat.isEmpty
  | c :: rest => pat.isPrefixOf (c :: rest) || listHasSub pat rest

/-- The Python substring test `pat in hay`. -/
def strContains (hay pat : String) : Bool :=
  listHasSub pat.toList hay.toList

/-- The Python `s.upper()`, computed on character lists. -/
def upper (s : String) : String :=
  String.mk (s.toList.map Char.toUpper)

/-- Rewritten path of `fix_tax_accounts_endpoints` line 60: under the
`startswith` guard, `old_path.replace(wrong, correct, 1)` is the correct
string followed by the characters of the path after the wrong leading
string. -/
def rewriteTarget (w c p : String) : String :=
  c ++ String.mk (p.toList.drop w.toList.length)

/-- Key of an entry after the rewrite pass: the rewritten path when the
wrong leading string matches, the unchanged path otherwise. -/
def targetKey (w c p : String) : String :=
  if hasPre w p then rewriteTarget w c p else p

/-- The `new_paths` rebuild loop of `fix_tax_accounts_endpoints` lines
57-66: every entry is assigned into a fresh dictionary under its target
key; an assignment to a key that is already present silently replaces the
earlier value, exactly as the Python dict assignment does. -/
def rewriteLoop {α : Type} (w c : String) : Paths α → Paths α → Paths α
  | acc, [] => acc
  | acc, (p, pd) :: rest => rewriteLoop w c (aset acc (targetKey w c p) pd) rest

/-- The wrong leading string fixed by `fix_tax_accounts_endpoints`. -/
def wrongPre : String := "/api/v1/settings/tax-accounts"

/-- The correct leading string of `fix_tax_accounts_endpoints`. -/
def rightPre : String := "/api/v1/tax-accounts"

/-- File effects of one script run: the content written to the timestamped
backup file (if any), the content written back to the swagger file (if
any), and the reported success. -/
structure RunTrace (α : Type) where
  backupContent : Option (Paths α)
  outContent : Option (Paths α)
  ok : Bool
deriving DecidableEq

/-- Whole run of `fix_tax_accounts_endpoints` lines 34-80 at the level of
the paths dictionary: with no path under the wrong leading string it
returns success before creating the backup or writing; otherwise the
backup is dumped from the still unmodified data and the rebuilt paths are
written. -/
def fixTaxRun {α : Type} (ps : Paths α) : RunTrace α :=
  if (ps.filter (fun e => hasPre wrongPre e.1)).isEmpty then ⟨none, none, true⟩
  else ⟨some ps, some (rewriteLoop wrongPre rightPre [] ps), true⟩

/-- Removal target list of `cleanup_invalid_endpoints`. -/
def invalidList : List String := ["/api/v1/settings/accounting"]

/-- Removal target list of `cleanup_invalid_tax_accounts`. -/
def invalidTaxList : List String :=
  ["/api/v1/tax-accounts/all", "/api/v1/tax-accounts/available-accounts"]

/-- Removal loop of `cleanup_invalid_endpoints` lines 39-45 and
`cleanup_invalid_tax_accounts` lines 65-69: each target present in the
paths dictionary is deleted and appended to the removed list; absent
targets are only logged. -/
def cleanupLoop {α : Type} : Paths α → List String → Paths α × List String
  | ps, [] => (ps, [])
  | ps, t :: rest =>
    if acontains ps t then
      let r := cleanupLoop (adel ps t) rest
      (r.1, t :: r.2)
    else cleanupLoop ps rest

/-- Removal loop of `remove_unused_swagger_endpoints` lines 103-107: same
shape, counting the removals. -/
def removeLoop {α : Type} : Paths α → List String → Paths α × Nat
  | ps, [] => (ps, 0)
  | ps, t :: rest =>
    if acontains ps t then
      let r := removeLoop (adel ps t) rest
      (r.1, r.2 + 1)
    else removeLoop ps rest

/-- Whole run of `cleanup_invalid_endpoints.cleanup_swagger` lines 26-66 at
the level of the paths dictionary: the deletions happen on the loaded data
first; only when something was removed are the backup and the swagger file
written, both dumped from the same already modified data. -/
def cleanupSwaggerRun {α : Type} (ps : Paths α) : RunTrace α :=
  let r := cleanupLoop ps invalidList
  if r.2.isEmpty then ⟨none, none, true⟩ else ⟨some r.1, some r.1, true⟩

/-- Whole run of `cleanup_invalid_tax_accounts` lines 26-90 at the level of
the paths dictionary, same write discipline as `cleanupSwaggerRun`. -/
def cleanupTaxRun {α : Type} (ps : Paths α) : RunTrace α :=
  let r := cleanupLoop ps invalidTaxList
  if r.2.isEmpty then ⟨none, none, true⟩ else ⟨some r.1, some r.1, true⟩

/-- The `correct_settings_endpoints` table of `fix_settings_endpoints`
lines 32-40 (allowed upper-case methods per settings path). -/
def settingsAllowed : List (String × List String) :=
  [("/api/v1/settings", ["GET", "PUT"]),
   ("/api/v1/settings/company", ["PUT"]),
   ("/api/v1/settings/system", ["PUT"]),
   ("/api/v1/settings/company/logo", ["POST"]),
   ("/api/v1/settings/reset", ["POST"]),
   ("/api/v1/settings/validation-rules", ["GET"]),
   ("/api/v1/settings/history", ["GET"])]

/-- Removal pass of `fix_settings_endpoints` lines 71-81: for every path
under `/api/v1/settings` listed in the table, methods whose upper-case
name is not allowed are deleted from the path item; paths themselves are
never deleted, and paths not listed in the table are left as they are. -/
def fixSettingsPaths {α : Type} (ps : Paths α) : Paths α :=
  ps.map (fun e =>
    if hasPre "/api/v1/settings" e.1 then
      match alookup settingsAllowed e.1 with
      | some allowed => (e.1, e.2.filter (fun mv => allowed.contains (upper mv.1)))
      | none => e
    else e)

/-- Operation object as read by `fix_swagger_display`: an optional list of
tag names plus the uninterpreted remaining fields. -/
structure Operation (α : Type) where
  tags : Option (List String)
  payload : α
deriving DecidableEq

/-- Tag fix of `fix_swagger_display` lines 97-105 (and 111-119) for one
operation: a missing tags field becomes the singleton default; a tags
field already containing the default is left alone; an empty tags list
becomes the singleton default; otherwise the default is appended. -/
def retag {α : Type} (t : String) (op : Operation α) : Operation α :=
  match op.tags with
  | none => ⟨some [t], op.payload⟩
  | some l =>
    if l.contains t then op
    else if l.isEmpty then ⟨some [t], op.payload⟩
    else ⟨some (l ++ [t]), op.payload⟩

/-- The tag-fix traversal of `fix_swagger_display` lines 92-119: paths
whose string contains `/assets` get the Assets default on every operation,
otherwise paths containing `/settings` get the Settings default, all other
paths are untouched. -/
def fixDisplayPaths {α : Type} (ps : Paths (Operation α)) : Paths (Operation α) :=
  ps.map (fun e =>
    if strContains e.1 "/assets" then
      (e.1, e.2.map (fun mv => (mv.1, retag "Assets" mv.2)))
    else if strContains e.1 "/settings" then
      (e.1, e.2.map (fun mv => (mv.1, retag "Settings" mv.2)))
    else e)

/-- Appending pass over new tag declarations: a declaration whose name is
in the snapshot of existing names is skipped, the others are kept in
order (the snapshot is computed once before the loop, as in
`merge_swagger_endpoints` line 159). -/
def appendMissing : List String → List (String × String) → List (String × String)
  | _, [] => []
  | snapshot, t :: rest =>
    if snapshot.contains t.1 then appendMissing snapshot rest
    else t :: appendMissing snapshot rest

/-- Tag merge of `merge_swagger_endpoints` lines 158-162 and
`add_assets_settings` lines 125-129: new declarations are appended when
their name is absent from the snapshot of existing names; existing
declarations are untouched.  A declaration is modelled as its name and
description. -/
def mergeTags (tags newTags : List (String × String)) : List (String × String) :=
  tags ++ appendMissing (tags.map Prod.fst) newTags

/-- Definition merge of `add_invoice_types_to_settings` lines 623-627:
every new definition is assigned unconditionally, replacing an existing
definition with the same key. -/
def addDefs {α : Type} : List (String × α) → List (String × α) → List (String × α)
  | defs, [] => defs
  | defs, d :: rest => addDefs (aset defs d.1 d.2) rest

/-- The info block of a swagger document: its optional description string
plus the uninterpreted remaining info fields. -/
structure InfoBlock where
  description : Option String
  rest : String
deriving DecidableEq

/-- Swagger document at the structural level the scripts read and write:
the paths dictionary, the tag declarations, the definitions dictionary,
the optional info block, and the uninterpreted remaining top-level fields. -/
structure SwaggerDoc (α : Type) where
  paths : Paths α
  tags : List (String × String)
  definitions : List (String × α)
  info : Option InfoBlock
  meta : String
deriving DecidableEq

/-- Marker substring checked by `merge_swagger_endpoints` line 120. -/
def crudMarker : String := "dengan fitur lengkap CRUD"

/-- Sentence appended by `merge_swagger_endpoints` lines 121-124. -/
def crudNote : String :=
  " Termasuk endpoint CRUD lengkap untuk akun, produk, aset, kontak, user, dan pengaturan sistem."

/-- Info update of `merge_swagger_endpoints` lines 117-124: when the info
block and its description exist and the marker substring is absent, the
CRUD sentence is appended to the description; otherwise info is left as
it is. -/
def mergeInfo (info : Option InfoBlock) : Option InfoBlock :=
  match info with
  | none => none
  | some ib =>
    match ib.description with
    | none => some ib
    | some d =>
      if strContains d crudMarker then some ib
      else some { ib with description := some (d ++ crudNote) }

/-- The six core module tag declarations of `merge_swagger_endpoints`
lines 131-156 (name and description). -/
def coreTags : List (String × String) :=
  [("Accounts", "Chart of accounts management - Manajemen bagan akun (COA)"),
   ("Products", "Product and inventory management - Manajemen produk dan inventori"),
   ("Assets", "Fixed assets and depreciation management - Manajemen aset tetap dan depresiasi"),
   ("Contacts", "Customer, vendor, and employee contact management - Manajemen kontak pelanggan, vendor, dan karyawan"),
   ("Users", "User account and role management - Manajemen pengguna dan peran"),
   ("Settings", "System settings and configuration - Pengaturan sistem dan konfigurasi")]

/-- Document-level effect of `merge_swagger_endpoints`: the paths merge
loop, the info description update, and the core tag append; definitions
and the remaining top-level fields are not touched. -/
def mergeSwaggerDoc {α : Type} (doc : SwaggerDoc α) (patch : Paths α) :
    SwaggerDoc α × MergeOut α :=
  let r := mergeRun doc.paths patch
  ({ doc with
      paths := r.paths
      info := mergeInfo doc.info
      tags := mergeTags doc.tags coreTags }, r)

/-- Cleanup note appended by `remove_unused_swagger_endpoints` line 117;
the wall-clock date of the run is injected. -/
def usageNote (today : String) : String :=
  "\n\nNOTE: Internal/unused endpoints have been removed based on frontend usage analysis performed on "
    ++ today ++ " ."

/-- Document-level effect of `remove_unused_swagger_endpoints` lines
100-117: the removal loop over the paths, then the info block is created
when absent and its description (empty when absent) gets the cleanup note
appended; tags, definitions and the remaining top-level fields are not
touched. -/
def removeUnusedDoc {α : Type} (today : String) (doc : SwaggerDoc α)
    (targets : List String) : SwaggerDoc α × Nat :=
  let r := removeLoop doc.paths targets
  let ib := doc.info.getD ⟨none, ""⟩
  ({ doc with
      paths := r.1
      info := some { ib with
        description := some (ib.description.getD "" ++ usageNote today) } }, r.2)

/-! Basic dictionary lemmas. -/

theorem alookup_aset_self {α : Type} (l : List (String × α)) (k : String) (v : α) :
    alookup (aset l k v) k = some v := by
  induction l with
  | nil => simp [aset, alookup]
  | cons hd t ih =>
    obtain ⟨k1, v1⟩ := hd
    by_cases hk : k1 = k
    · simp [aset, hk, alookup]
    · simp [aset, hk, alookup, ih]

theorem alookup_aset_ne {α : Type} (l : List (String × α)) (k k' : String) (v : α)
    (h : k' ≠ k) : alookup (aset l k v) k' = alookup l k' := by
  induction l with
  | nil => simp [aset, alookup, Ne.symm h]
  | cons hd t ih =>
    obtain ⟨k1, v1⟩ := hd
    by_cases hk : k1 = k
    · subst hk; simp [aset, alookup, Ne.symm h]
    · simp [aset, hk, alookup, ih]

theorem acontains_aset_self {α : Type} (l : List (String × α)) (k : String) (v : α) :
    acontains (aset l k v) k = true := by
  simp [acontains, alookup_aset_self]

theorem acontains_aset_mono {α : Type} (l : List (String × α)) (k k' : String) (v : α)
    (h : acontains l k' = true) : acontains (aset l k v) k' = true := by
  by_cases hk : k' = k
  · subst hk; exact acontains_aset_self l k' v
  · simpa [acontains, alookup_aset_ne l k k' v hk] using h

theorem aset_eq_of_lookup {α : Type} (l : List (String × α)) (k : String) (v : α)
    (h : alookup l k = some v) : aset l k v = l := by
  induction l with
  | nil => simp [alookup] at h
  | cons hd t ih =>
    obtain ⟨k1, v1⟩ := hd
    by_cases hk : k1 = k
    · subst hk
      simp [alookup] at h
      simp [aset, h]
    · simp [alookup, hk] at h
      simp [aset, hk, ih h]

theorem alookup_mem {α : Type} (l : List (String × α)) (k : String) (v : α)
    (h : alookup l k = some v) : (k, v) ∈ l := by
  induction l with
  | nil => simp [alookup] at h
  | cons hd t ih =>
    obtain ⟨k1, v1⟩ := hd
    by_cases hk : k1 = k
    · subst hk
      simp [alookup] at h
      simp [h]
    · simp [alookup, hk] at h
      exact List.mem_cons_of_mem _ (ih h)

theorem mem_acontains {α : Type} (l : List (String × α)) (k : String) (v : α)
    (h : (k, v) ∈ l) : acontains l k = true := by
  induction l with
  | nil => simp at h
  | cons hd t ih =>
    obtain ⟨k1, v1⟩ := hd
    by_cases hk : k1 = k
    · simp [acontains, alookup, hk]
    · rcases List.mem_cons.mp h with he | hm
      · exact absurd (congrArg Prod.fst he).symm hk
      · simpa [acontains, alookup, hk] using ih hm

theorem alookup_append_left {α : Type} (l1 l2 : List (String × α)) (k : String)
    (h : acontains l1 k = true) : alookup (l1 ++ l2) k = alookup l1 k := by
  induction l1 with
  | nil => simp [acontains, alookup] at h
  | cons hd t ih =>
    obtain ⟨k1, v1⟩ := hd
    by_cases hk : k1 = k
    · simp [alookup, hk]
    · simpa [alookup, hk] using ih (by simpa [acontains, alookup, hk] using h)

theorem mem_map_fst_iff {α : Type} (l : List (String × α)) (k : String) :
    k ∈ l.map Prod.fst ↔ acontains l k = true := by
  induction l with
  | nil => simp [acontains, alookup]
  | cons hd t ih =>
    obtain ⟨k1, v1⟩ := hd
    by_cases hk : k1 = k
    · simp [acontains, alookup, hk]
    · have hk2 : k ≠ k1 := fun he => hk he.symm
      simp [acontains, alookup, hk, hk2, ih]

/-! Lemmas on the method-level merge loop. -/

theorem mergeMethodsAux_lookup_preserve {α : Type} (bms : Methods α) (ms : Methods α) :
    ∀ acc m v, acontains bms m = true → alookup acc m = some v →
      alookup (mergeMethodsAux bms acc ms).1 m = some v := by
  induction ms with
  | nil => intro acc m v _ h2; simpa [mergeMethodsAux] using h2
  | cons hd rest ih =>
    intro acc m v h1 h2
    obtain ⟨m0, v0⟩ := hd
    by_cases hb : acontains bms m0 = true
    · simpa [mergeMethodsAux, hb] using ih acc m v h1 h2
    · have hne : m ≠ m0 := by
        intro he; rw [← he] at hb; exact hb h1
      simp only [mergeMethodsAux, hb, Bool.false_eq_true, if_false]
      exact ih (aset acc m0 v0) m v h1
        (by rw [alookup_aset_ne acc m0 m v0 hne]; exact h2)

theorem mergeMethodsAux_contains_mono {α : Type} (bms ms : Methods α) :
    ∀ acc m, acontains acc m = true →
      acontains (mergeMethodsAux bms acc ms).1 m = true := by
  induction ms with
  | nil => intro acc m h; simpa [mergeMethodsAux] using h
  | cons hd rest ih =>
    intro acc m h
    obtain ⟨m0, v0⟩ := hd
    by_cases hb : acontains bms m0 = true
    · simpa [mergeMethodsAux, hb] using ih acc m h
    · simp only [mergeMethodsAux, hb, Bool.false_eq_true, if_false]
      exact ih (aset acc m0 v0) m (acontains_aset_mono acc m0 m v0 h)

theorem mergeMethodsAux_contains_of_mem {α : Type} (bms ms : Methods α) :
    ∀ acc m v, (m, v) ∈ ms →
      (∀ m2, acontains bms m2 = true → acontains acc m2 = true) →
      acontains (mergeMethodsAux bms acc ms).1 m = true := by
  induction ms with
  | nil => intro acc m v h _; simp at h
  | cons hd rest ih =>
    intro acc m v hmem hsub
    obtain ⟨m0, v0⟩ := hd
    rcases List.mem_cons.mp hmem with he | hm
    · have hm0 : m = m0 := congrArg Prod.fst he
      subst hm0
      by_cases hb : acontains bms m = true
      · simpa [mergeMethodsAux, hb] using
          mergeMethodsAux_contains_mono bms rest acc m (hsub m hb)
      · simp only [mergeMethodsAux, hb, Bool.false_eq_true, if_false]
        exact mergeMethodsAux_contains_mono bms rest (aset acc m v0) m
          (acontains_aset_self acc m v0)
    · by_cases hb : acontains bms m0 = true
      · simpa [mergeMethodsAux, hb] using ih acc m v hm hsub
      · simp only [mergeMethodsAux, hb, Bool.false_eq_true, if_false]
        exact ih (aset acc m0 v0) m v hm
          (fun m2 h2 => acontains_aset_mono acc m0 m2 v0 (hsub m2 h2))

theorem mergeMethodsAux_all_skip {α : Type} (bms : Methods α) (ms : Methods α) :
    ∀ acc, (∀ mv ∈ ms, acontains bms mv.1 = true) →
      mergeMethodsAux bms acc ms = (acc, 0) := by
  induction ms with
  | nil => intro acc _; rfl
  | cons hd rest ih =>
    intro acc h
    obtain ⟨m0, v0⟩ := hd
    have hb : acontains bms m0 = true := h (m0, v0) (List.mem_cons_self _ _)
    simpa [mergeMethodsAux, hb] using
      ih acc (fun mv hm => h mv (List.mem_cons_of_mem _ hm))

theorem conflictKeys_mem_of {α : Type} (bms : Methods α) (ms : Methods α)
    (m : String) (v : α) (hmem : (m, v) ∈ ms) (hb : acontains bms m = true) :
    m ∈ conflictKeys bms ms := by
  induction ms with
  | nil => simp at hmem
  | cons hd rest ih =>
    obtain ⟨m0, v0⟩ := hd
    rcases List.mem_cons.mp hmem with he | hm
    · have hm0 : m = m0 := congrArg Prod.fst he
      subst hm0
      simp [conflictKeys, hb]
    · by_cases hb0 : acontains bms m0 = true
      · simp only [conflictKeys, hb0, if_true]
        exact List.mem_cons_of_mem _ (ih hm)
      · simpa [conflictKeys, hb0] using ih hm

theorem conflictKeys_all {α : Type} (bms : Methods α) (ms : Methods α)
    (h : ∀ mv ∈ ms, acontains bms mv.1 = true) :
    conflictKeys bms ms = ms.map Prod.fst := by
  induction ms with
  | nil => rfl
  | cons hd rest ih =>
    obtain ⟨m0, v0⟩ := hd
    have hb : acontains bms m0 = true := h (m0, v0) (List.mem_cons_self _ _)
    simp [conflictKeys, hb, ih (fun mv hm => h mv (List.mem_cons_of_mem _ hm))]

/-! Lemmas on the path-level merge loop. -/

theorem conflMem_append_right (x r : List (String × List String)) (p m : String)
    (h : conflMem r p m = true) : conflMem (x ++ r) p m = true := by
  induction x with
  | nil => simpa using h
  | cons hd t ih =>
    obtain ⟨q, l⟩ := hd
    simp [conflMem, ih]

theorem mergeRun_lookupPM_preserve {α : Type} (patch : Paths α) :
    ∀ cur p m v, lookupPM cur p m = some v →
      lookupPM (mergeRun cur patch).paths p m = some v := by
  induction patch with
  | nil => intro cur p m v h; simpa [mergeRun] using h
  | cons hd rest ih =>
    intro cur p m v h
    obtain ⟨q, qms⟩ := hd
    cases hq : alookup cur q with
    | some bms =>
      simp only [mergeRun, hq]
      apply ih
      by_cases hpq : p = q
      · subst hpq
        have hms : alookup bms m = some v := by
          unfold lookupPM at h
          rw [hq] at h
          exact h
        unfold lookupPM
        rw [alookup_aset_self]
        exact mergeMethodsAux_lookup_preserve bms qms bms m v
          (by simp [acontains, hms]) hms
      · simpa [lookupPM, alookup_aset_ne cur q p _ hpq] using h
    | none =>
      simp only [mergeRun, hq]
      apply ih
      by_cases hpq : p = q
      · subst hpq
        unfold lookupPM at h
        rw [hq] at h
        simp at h
      · simpa [lookupPM, alookup_aset_ne cur q p _ hpq] using h

theorem mergeRun_acontains_mono {α : Type} (patch : Paths α) :
    ∀ cur p, acontains cur p = true →
      acontains (mergeRun cur patch).paths p = true := by
  induction patch with
  | nil => intro cur p h; simpa [mergeRun] using h
  | cons hd rest ih =>
    intro cur p h
    obtain ⟨q, qms⟩ := hd
    cases hq : alookup cur q with
    | some bms =>
      simp only [mergeRun, hq]
      exact ih _ p (acontains_aset_mono cur q p _ h)
    | none =>
      simp only [mergeRun, hq]
      exact ih _ p (acontains_aset_mono cur q p _ h)

theorem mergeRun_hasPM_mono {α : Type} (patch : Paths α) (cur : Paths α)
    (p m : String) (h : hasPM cur p m = true) :
    hasPM (mergeRun cur patch).paths p m = true := by
  unfold hasPM at h ⊢
  cases hv : lookupPM cur p m with
  | none => rw [hv] at h; simp at h
  | some v =>
    rw [mergeRun_lookupPM_preserve patch cur p m v hv]
    rfl

theorem mergeRun_hasPM_of_mem {α : Type} (patch : Paths α) :
    ∀ cur p ms m v, (p, ms) ∈ patch → (m, v) ∈ ms →
      hasPM (mergeRun cur patch).paths p m = true := by
  induction patch with
  | nil => intro cur p ms m v hp _; simp at hp
  | cons hd rest ih =>
    intro cur p ms m v hp hm
    obtain ⟨q, qms⟩ := hd
    rcases List.mem_cons.mp hp with he | hp'
    · have hp1 : p = q := congrArg Prod.fst he
      have hm1 : ms = qms := congrArg Prod.snd he
      subst hp1
      subst hm1
      cases hcp : alookup cur p with
      | some bms =>
        simp only [mergeRun, hcp]
        apply mergeRun_hasPM_mono
        unfold hasPM lookupPM
        rw [alookup_aset_self]
        have hc := mergeMethodsAux_contains_of_mem bms ms bms m v hm (fun _ h2 => h2)
        simpa [acontains] using hc
      | none =>
        simp only [mergeRun, hcp]
        apply mergeRun_hasPM_mono
        unfold hasPM lookupPM
        rw [alookup_aset_self]
        simpa [acontains] using mem_acontains ms m v hm
    · cases hcp : alookup cur q with
      | some bms =>
        simp only [mergeRun, hcp]
        exact ih _ p ms m v hp' hm
      | none =>
        simp only [mergeRun, hcp]
        exact ih _ p ms m v hp' hm

theorem mergeRun_acontains_of_mem {α : Type} (patch : Paths α) :
    ∀ cur p ms, (p, ms) ∈ patch →
      acontains (mergeRun cur patch).paths p = true := by
  induction patch with
  | nil => intro cur p ms hp; simp at hp
  | cons hd rest ih =>
    intro cur p ms hp
    obtain ⟨q, qms⟩ := hd
    rcases List.mem_cons.mp hp with he | hp'
    · have hp1 : p = q := congrArg Prod.fst he
      subst hp1
      cases hcp : alookup cur p with
      | some bms =>
        simp only [mergeRun, hcp]
        exact mergeRun_acontains_mono rest _ p (acontains_aset_self cur p _)
      | none =>
        simp only [mergeRun, hcp]
        exact mergeRun_acontains_mono rest _ p (acontains_aset_self cur p _)
    · cases hcp : alookup cur q with
      | some bms =>
        simp only [mergeRun, hcp]
        exact ih _ p ms hp'
      | none =>
        simp only [mergeRun, hcp]
        exact ih _ p ms hp'

theorem mergeRun_conflMem {α : Type} (patch : Paths α) :
    ∀ cur p pms bms m, alookup patch p = some pms → alookup cur p = some bms →
      acontains pms m = true → acontains bms m = true →
      conflMem (mergeRun cur patch).conflicts p m = true := by
  induction patch with
  | nil => intro cur p pms bms m hpatch _ _ _; simp [alookup] at hpatch
  | cons hd rest ih =>
    intro cur p pms bms m hpatch hcur hpm hbm
    obtain ⟨q, qms⟩ := hd
    by_cases hqp : q = p
    · subst hqp
      have hpms : qms = pms := by simpa [alookup] using hpatch
      subst hpms
      simp only [mergeRun, hcur]
      obtain ⟨v, hv⟩ : ∃ v, alookup qms m = some v := by
        cases hl : alookup qms m with
        | none => rw [acontains, hl] at hpm; simp at hpm
        | some v => exact ⟨v, rfl⟩
      have hmem := alookup_mem qms m v hv
      have hck := conflictKeys_mem_of bms qms m v hmem hbm
      have hcond : ¬((conflictKeys bms qms).isEmpty = true) := by
        cases hl : conflictKeys bms qms with
        | nil => rw [hl] at hck; simp at hck
        | cons a t => simp
      rw [if_neg hcond, List.singleton_append]
      simp [conflMem]
      exact Or.inl hck
    · have hpatch' : alookup rest p = some pms := by
        simpa [alookup, hqp] using hpatch
      have hqp' : p ≠ q := fun he => hqp he.symm
      cases hcq : alookup cur q with
      | some bq =>
        simp only [mergeRun, hcq]
        apply conflMem_append_right
        apply ih _ p pms bms m hpatch' _ hpm hbm
        rw [alookup_aset_ne cur q p _ hqp']
        exact hcur
      | none =>
        simp only [mergeRun, hcq]
        apply ih _ p pms bms m hpatch' _ hpm hbm
        rw [alookup_aset_ne cur q p _ hqp']
        exact hcur

theorem mergeRun_idem {α : Type} (patch : Paths α) :
    ∀ cur, (∀ p ms, (p, ms) ∈ patch → ∃ oms, alookup cur p = some oms ∧
        ∀ mv ∈ ms, acontains oms mv.1 = true) →
      mergeRun cur patch = ⟨cur, allConf patch, 0⟩ := by
  induction patch with
  | nil => intro cur _; rfl
  | cons hd rest ih =>
    intro cur h
    obtain ⟨p, ms⟩ := hd
    obtain ⟨oms, ho, hall⟩ := h p ms (List.mem_cons_self _ _)
    have hmm : mergeMethods oms ms = (oms, 0) :=
      mergeMethodsAux_all_skip oms ms oms hall
    have hck : conflictKeys oms ms = ms.map Prod.fst := conflictKeys_all oms ms hall
    have hset : aset cur p oms = cur := aset_eq_of_lookup cur p oms ho
    have hrest := ih cur (fun p2 ms2 hm => h p2 ms2 (List.mem_cons_of_mem _ hm))
    simp only [mergeRun, ho, hmm, hck, hset, hrest, allConf]

theorem conflPairs_allConf {α : Type} (patch : Paths α) :
    conflPairs (allConf patch) = patchPairs patch := by
  induction patch with
  | nil => rfl
  | cons hd rest ih =>
    obtain ⟨p, ms⟩ := hd
    by_cases h : (ms.map Prod.fst).isEmpty = true
    · have hms : ms = [] := by
        cases ms with
        | nil => rfl
        | cons a t => simp [List.isEmpty] at h
      subst hms
      simpa [allConf, conflPairs, patchPairs] using ih
    · simp only [allConf, h, Bool.false_eq_true, if_false, List.singleton_append,
        conflPairs, patchPairs, ih, List.map_map]
      rfl

/-! Lemmas on the rewrite rebuild loop. -/

theorem rewriteLoop_lookup_other {α : Type} (w c : String) (ps : Paths α) :
    ∀ acc k, (∀ e ∈ ps, targetKey w c e.1 ≠ k) →
      alookup (rewriteLoop w c acc ps) k = alookup acc k := by
  induction ps with
  | nil => intro acc k _; rfl
  | cons hd rest ih =>
    intro acc k h
    obtain ⟨p, pd⟩ := hd
    have hne : targetKey w c p ≠ k := h (p, pd) (List.mem_cons_self _ _)
    rw [rewriteLoop, ih _ k (fun e he => h e (List.mem_cons_of_mem _ he))]
    exact alookup_aset_ne acc (targetKey w c p) k pd (fun he => hne he.symm)

theorem rewriteLoop_lookup_of_mem {α : Type} (w c : String) (ps : Paths α) :
    ∀ acc p pd, (ps.map (fun e => targetKey w c e.1)).Nodup → (p, pd) ∈ ps →
      alookup (rewriteLoop w c acc ps) (targetKey w c p) = some pd := by
  induction ps with
  | nil => intro acc p pd _ h; simp at h
  | cons hd rest ih =>
    intro acc p pd hnd hmem
    obtain ⟨q, qd⟩ := hd
    rw [List.map_cons, List.nodup_cons] at hnd
    obtain ⟨hnotin, hnd'⟩ := hnd
    rcases List.mem_cons.mp hmem with he | hm
    · have hp1 : p = q := congrArg Prod.fst he
      have hd1 : pd = qd := congrArg Prod.snd he
      subst hp1
      subst hd1
      rw [rewriteLoop]
      rw [rewriteLoop_lookup_other w c rest _ _
        (fun e hme heq => hnotin (by rw [← heq]; exact List.mem_map_of_mem _ hme))]
      exact alookup_aset_self acc (targetKey w c p) pd
    · rw [rewriteLoop]
      exact ih _ p pd hnd' hm

/-! Lemmas on the removal loops. -/

theorem cleanupLoop_absent {α : Type} (targets : List String) :
    ∀ ps : Paths α, (∀ t ∈ targets, acontains ps t = false) →
      cleanupLoop ps targets = (ps, []) := by
  induction targets with
  | nil => intro ps _; rfl
  | cons t rest ih =>
    intro ps h
    have ht : acontains ps t = false := h t (List.mem_cons_self _ _)
    rw [cleanupLoop, if_neg (by simp [ht])]
    exact ih ps (fun t2 h2 => h t2 (List.mem_cons_of_mem _ h2))

theorem removeLoop_absent {α : Type} (targets : List String) :
    ∀ ps : Paths α, (∀ t ∈ targets, acontains ps t = false) →
      removeLoop ps targets = (ps, 0) := by
  induction targets with
  | nil => intro ps _; rfl
  | cons t rest ih =>
    intro ps h
    have ht : acontains ps t = false := h t (List.mem_cons_self _ _)
    rw [removeLoop, if_neg (by simp [ht])]
    exact ih ps (fun t2 h2 => h t2 (List.mem_cons_of_mem _ h2))

/-! Lemmas on the tag and definition merges. -/

theorem appendMissing_mem (snapshot : List String) (newTags : List (String × String)) :
    ∀ t ∈ newTags, snapshot.contains t.1 = false → t ∈ appendMissing snapshot newTags := by
  induction newTags with
  | nil => intro t h _; simp at h
  | cons hd rest ih =>
    intro t hmem hns
    rcases List.mem_cons.mp hmem with he | hm
    · subst he
      have hns2 : t.1 ∉ snapshot := by simpa using hns
      simp [appendMissing, hns2]
    · obtain ⟨k1, d1⟩ := hd
      by_cases hc : k1 ∈ snapshot
      · simpa [appendMissing, hc] using ih t hm hns
      · simp only [appendMissing]
        rw [if_neg (by simpa using hc)]
        exact List.mem_cons_of_mem _ (ih t hm hns)

theorem addDefs_lookup_frame {α : Type} (newDefs : List (String × α)) :
    ∀ defs k, acontains newDefs k = false →
      alookup (addDefs defs newDefs) k = alookup defs k := by
  induction newDefs with
  | nil => intro defs k _; rfl
  | cons hd rest ih =>
    intro defs k h
    obtain ⟨k0, v0⟩ := hd
    have hk0 : k0 ≠ k := by
      intro he
      subst he
      simp [acontains, alookup] at h
    have hrest : acontains rest k = false := by
      simpa [acontains, alookup, hk0] using h
    rw [addDefs, ih _ k hrest]
    exact alookup_aset_ne defs k0 k v0 (fun he => hk0 he.symm)

theorem addDefs_lookup_new {α : Type} (newDefs : List (String × α)) :
    ∀ defs k v, (newDefs.map Prod.fst).Nodup → alookup newDefs k = some v →
      alookup (addDefs defs newDefs) k = some v := by
  induction newDefs with
  | nil => intro defs k v _ h; simp [alookup] at h
  | cons hd rest ih =>
    intro defs k v hnd h
    obtain ⟨k0, v0⟩ := hd
    rw [List.map_cons, List.nodup_cons] at hnd
    obtain ⟨hnotin, hnd'⟩ := hnd
    by_cases hk : k0 = k
    · subst hk
      have hv : v0 = v := by simpa [alookup] using h
      subst hv
      have hrest : acontains rest k0 = false := by
        cases hc : acontains rest k0 with
        | false => rfl
        | true => exact absurd ((mem_map_fst_iff rest k0).mpr hc) hnotin
      rw [addDefs, addDefs_lookup_frame rest _ k0 hrest]
      exact alookup_aset_self defs k0 v0
    · have h' : alookup rest k = some v := by simpa [alookup, hk] using h
      rw [addDefs]
      exact ih _ k v hnd' h'

/-! Map helpers shared by the path-preserving traversals. -/

theorem map_fst_preserve {α β : Type} (f : String × α → String × β)
    (hf : ∀ e, (f e).1 = e.1) (l : List (String × α)) :
    (l.map f).map Prod.fst = l.map Prod.fst := by
  induction l with
  | nil => rfl
  | cons hd t ih => simp [hf, ih]

theorem mem_map_id_of {γ : Type} (f : γ → γ) (l : List γ) (x : γ)
    (hm : x ∈ l) (hf : f x = x) : x ∈ l.map f := by
  have h2 := List.mem_map_of_mem f hm
  rw [hf] at h2
  exact h2

/-- C1: the merge of `merge_swagger_endpoints` (same loop in
`add_assets_settings`) is additive-only and base-wins: every path of the
base is present in the merged paths; every (path, method) of the base
keeps exactly the base's operation value; and a method present in both
base and patch is recorded as a conflict while the merged document still
maps it to the base's value — the patch value is never copied in. -/
theorem merge_additive_base_wins {α : Type} (base patch : Paths α) :
    (∀ p, acontains base p = true → acontains (mergeRun base patch).paths p = true) ∧
    (∀ p m v, lookupPM base p m = some v →
      lookupPM (mergeRun base patch).paths p m = some v) ∧
    (∀ p pms bms m, alookup patch p = some pms → alookup base p = some bms →
      acontains pms m = true → acontains bms m = true →
      conflMem (mergeRun base patch).conflicts p m = true ∧
      lookupPM (mergeRun base patch).paths p m = lookupPM base p m) := by
  refine ⟨fun p h => mergeRun_acontains_mono patch base p h,
    fun p m v h => mergeRun_lookupPM_preserve patch base p m v h,
    fun p pms bms m h1 h2 h3 h4 =>
      ⟨mergeRun_conflMem patch base p pms bms m h1 h2 h3 h4, ?_⟩⟩
  obtain ⟨v, hv⟩ : ∃ v, alookup bms m = some v := by
    cases hl : alookup bms m with
    | none => rw [acontains, hl] at h4; simp at h4
    | some v => exact ⟨v, rfl⟩
  have hbase : lookupPM base p m = some v := by
    unfold lookupPM
    rw [h2]
    exact hv
  rw [hbase, mergeRun_lookupPM_preserve patch base p m v hbase]

/-- C1 witness: input where the base maps (/s, get) to operation 1 and a
patch offering a conflicting operation 2 for the same method. -/
theorem merge_additive_base_wins_witness :
    acontains (mergeRun [("/s", [("get", 1)])] [("/s", [("get", 2)])]).paths "/s" = true ∧
    lookupPM (mergeRun [("/s", [("get", 1)])] [("/s", [("get", 2)])]).paths "/s" "get" = some 1 ∧
    conflMem (mergeRun [("/s", [("get", 1)])] [("/s", [("get", 2)])]).conflicts "/s" "get" = true :=
  ⟨(merge_additive_base_wins [("/s", [("get", 1)])] [("/s", [("get", 2)])]).1 "/s" (by decide),
   (merge_additive_base_wins [("/s", [("get", 1)])] [("/s", [("get", 2)])]).2.1 "/s" "get" 1
     (by decide),
   ((merge_additive_base_wins [("/s", [("get", 1)])] [("/s", [("get", 2)])]).2.2 "/s"
     [("get", 2)] [("get", 1)] "get" (by decide) (by decide) (by decide) (by decide)).1⟩

/-- C2 counterexample: merging a patch with a fresh path and then merging
the same patch again records a conflict for (/a, g) that the first
application did not record, so the two applications do not produce the
same conflict set. -/
theorem merge_idem_conflicts_cex :
    conflMem (mergeRun (mergeRun ([] : Paths Nat) [("/a", [("g", 0)])]).paths
      [("/a", [("g", 0)])]).conflicts "/a" "g" = true ∧
    conflMem (mergeRun ([] : Paths Nat) [("/a", [("g", 0)])]).conflicts "/a" "g" = false := by
  decide

/-- C2 (amended): re-merging the same patch against the merge's own output
yields zero additions and the unchanged paths dictionary, and the second
application's conflict set is the set of all (path, method) pairs of the
patch — it equals the first application's conflict set only when every
patch method already existed in the base. -/
theorem merge_idem_amended {α : Type} (base patch : Paths α) :
    (mergeRun (mergeRun base patch).paths patch).paths = (mergeRun base patch).paths ∧
    (mergeRun (mergeRun base patch).paths patch).added = 0 ∧
    conflPairs (mergeRun (mergeRun base patch).paths patch).conflicts =
      patchPairs patch := by
  have h := mergeRun_idem patch (mergeRun base patch).paths ?_
  · rw [h]
    exact ⟨rfl, rfl, conflPairs_allConf patch⟩
  · intro p ms hm
    have hp := mergeRun_acontains_of_mem patch base p ms hm
    obtain ⟨oms, ho⟩ : ∃ oms, alookup (mergeRun base patch).paths p = some oms := by
      cases hl : alookup (mergeRun base patch).paths p with
      | none => rw [acontains, hl] at hp; simp at hp
      | some oms => exact ⟨oms, rfl⟩
    refine ⟨oms, ho, fun mv hmv => ?_⟩
    have hpm := mergeRun_hasPM_of_mem patch base p ms mv.1 mv.2 hm (by simpa using hmv)
    unfold hasPM lookupPM at hpm
    rw [ho] at hpm
    simpa [acontains] using hpm

/-- C3 counterexample: rewriting `/api/v1/settings/tax-accounts` while
`/api/v1/tax-accounts` already exists reports nothing: the original entry
is renamed onto the occupied key and its path item is then silently
overwritten by the later entry, so the output holds a single entry with
the unaffected item and the renamed item is lost. -/
theorem rewrite_collision_cex :
    rewriteLoop wrongPre rightPre []
      [("/api/v1/settings/tax-accounts", [("get", 1)]),
       ("/api/v1/tax-accounts", [("get", 2)])] =
      [("/api/v1/tax-accounts", [("get", 2)])] ∧
    alookup (rewriteLoop wrongPre rightPre []
      [("/api/v1/settings/tax-accounts", [("get", 1)]),
       ("/api/v1/tax-accounts", [("get", 2)])])
      "/api/v1/settings/tax-accounts" = none := by
  decide

/-- C3 (amended): the rewrite performs no collision detection — every
entry is committed at its target key and a colliding target silently
overwrites the value written earlier, losing one path item.  When no two
entries share a target key, every entry appears in the output under its
target key with its path item unchanged. -/
theorem rewrite_noncolliding_amended {α : Type} (w c : String) (ps : Paths α)
    (hnd : (ps.map (fun e => targetKey w c e.1)).Nodup) :
    ∀ p pd, (p, pd) ∈ ps →
      alookup (rewriteLoop w c [] ps) (targetKey w c p) = some pd :=
  fun p pd hm => rewriteLoop_lookup_of_mem w c ps [] p pd hnd hm

/-- C3 witness: a non-colliding document where the tax-accounts entry is
renamed to its target key with its path item intact. -/
theorem rewrite_noncolliding_amended_witness :
    alookup (rewriteLoop wrongPre rightPre []
      [("/api/v1/settings/tax-accounts", [("get", 1)]), ("/other", [("get", 2)])])
      (targetKey wrongPre rightPre "/api/v1/settings/tax-accounts") = some [("get", 1)] :=
  rewrite_noncolliding_amended wrongPre rightPre
    [("/api/v1/settings/tax-accounts", [("get", 1)]), ("/other", [("get", 2)])]
    (by decide) "/api/v1/settings/tax-accounts" [("get", 1)] (by decide)

/-- C4 counterexample: removing the single disallowed method of
`/api/v1/settings/company` leaves the path in the document with an empty
method dictionary — the emptied path item is not removed, so the output
violates the invariant that every path item has at least one method. -/
theorem prune_empty_item_cex :
    fixSettingsPaths [("/api/v1/settings/company", [("get", 0)])] =
      [("/api/v1/settings/company", ([] : Methods Nat))] ∧
    acontains (fixSettingsPaths [("/api/v1/settings/company", [("get", 0)])])
      "/api/v1/settings/company" = true := by
  decide

/-- C4 (amended): the settings fix removes only disallowed methods and
never removes a path key — the output path keys equal the input path keys
even when all of a path's methods were removed, and entries outside the
settings area or not listed in the allowed table are carried through
unchanged.  An emptied path item therefore stays in the document. -/
theorem fix_settings_amended {α : Type} (ps : Paths α) :
    ((fixSettingsPaths ps).map Prod.fst = ps.map Prod.fst) ∧
    (∀ p pd, (p, pd) ∈ ps → hasPre "/api/v1/settings" p = false →
      (p, pd) ∈ fixSettingsPaths ps) ∧
    (∀ p pd, (p, pd) ∈ ps → acontains settingsAllowed p = false →
      (p, pd) ∈ fixSettingsPaths ps) := by
  refine ⟨?_, ?_, ?_⟩
  · unfold fixSettingsPaths
    apply map_fst_preserve
    intro e
    cases h1 : hasPre "/api/v1/settings" e.1 with
    | false => simp [h1]
    | true => cases h2 : alookup settingsAllowed e.1 <;> simp [h1, h2]
  · intro p pd hm hpre
    unfold fixSettingsPaths
    exact mem_map_id_of _ ps (p, pd) hm (by simp [hpre])
  · intro p pd hm hal
    have hnone : alookup settingsAllowed p = none := by
      cases hl : alookup settingsAllowed p with
      | none => rfl
      | some a => rw [acontains, hl] at hal; simp at hal
    unfold fixSettingsPaths
    refine mem_map_id_of _ ps (p, pd) hm ?_
    cases h1 : hasPre "/api/v1/settings" p with
    | false => simp [h1]
    | true => simp [h1, hnone]

/-- C4 witness: a non-settings entry and a settings entry absent from the
allowed table both pass through unchanged. -/
theorem fix_settings_amended_witness :
    (fixSettingsPaths [("/api/v1/products", [("get", 0)])]).map Prod.fst =
      [("/api/v1/products", [("get", 0)])].map Prod.fst ∧
    ("/api/v1/products", [("get", 0)]) ∈
      fixSettingsPaths [("/api/v1/products", [("get", 0)])] ∧
    ("/api/v1/settings/unknown", [("get", 1)]) ∈
      fixSettingsPaths [("/api/v1/products", [("get", 0)]),
        ("/api/v1/settings/unknown", [("get", 1)])] :=
  ⟨(fix_settings_amended [("/api/v1/products", [("get", 0)])]).1,
   (fix_settings_amended [("/api/v1/products", [("get", 0)])]).2.1
     "/api/v1/products" [("get", 0)] (by decide) (by decide),
   (fix_settings_amended [("/api/v1/products", [("get", 0)]),
      ("/api/v1/settings/unknown", [("get", 1)])]).2.2
     "/api/v1/settings/unknown" [("get", 1)] (by decide) (by decide)⟩

/-- C5: pruning targets absent from the paths dictionary is a no-op and
not an error — both removal loops return the unchanged dictionary with an
empty removed list and a zero removal count, so repeated runs are safe. -/
theorem prune_absent_noop {α : Type} (ps : Paths α) (targets : List String)
    (h : ∀ t ∈ targets, acontains ps t = false) :
    cleanupLoop ps targets = (ps, []) ∧ removeLoop ps targets = (ps, 0) :=
  ⟨cleanupLoop_absent targets ps h, removeLoop_absent targets ps h⟩

/-- C5 witness: pruning the absent target /not/present leaves the
document untouched and counts zero removals. -/
theorem prune_absent_noop_witness :
    cleanupLoop [("/a", [("get", 0)])] ["/not/present"] = ([("/a", [("get", 0)])], []) ∧
    removeLoop [("/a", [("get", 0)])] ["/not/present"] = ([("/a", [("get", 0)])], 0) :=
  prune_absent_noop [("/a", [("get", 0)])] ["/not/present"] (by decide)

/-- C6 counterexample: the definitions merge of
`add_invoice_types_to_settings` assigns every patch definition
unconditionally, so a key already present in the base is overwritten with
the patch value instead of being left untouched. -/
theorem defs_presence_cex :
    addDefs [("k", 0)] [("k", 1)] = [("k", 1)] ∧
    alookup (addDefs [("k", 0)] [("k", 1)]) "k" ≠ some 0 := by
  decide

/-- C6 (amended): tag declarations are merged by the presence rule —
names already declared are untouched and the patch declaration is not
copied, absent names are appended — but definitions are not: every patch
definition is assigned unconditionally, so a key present in both
dictionaries ends up with the patch's value (patch wins), and the script
reports the total patch definition count rather than a per-added count. -/
theorem defs_tags_merge_amended {α : Type} (tags newTags : List (String × String))
    (defs newDefs : List (String × α)) :
    (∀ name, acontains tags name = true →
      alookup (mergeTags tags newTags) name = alookup tags name) ∧
    (∀ t ∈ newTags, acontains tags t.1 = false → t ∈ mergeTags tags newTags) ∧
    (∀ k, acontains newDefs k = false →
      alookup (addDefs defs newDefs) k = alookup defs k) ∧
    (∀ k v, (newDefs.map Prod.fst).Nodup → alookup newDefs k = some v →
      alookup (addDefs defs newDefs) k = some v) := by
  refine ⟨fun name h => alookup_append_left tags _ name h,
    fun t hm hc => ?_,
    fun k h => addDefs_lookup_frame newDefs defs k h,
    fun k v hnd h => addDefs_lookup_new newDefs defs k v hnd h⟩
  unfold mergeTags
  apply List.mem_append_right
  apply appendMissing_mem _ _ t hm
  cases hc2 : (tags.map Prod.fst).contains t.1 with
  | false => rfl
  | true =>
    have hmem := (mem_map_fst_iff tags t.1).mp (by simpa using hc2)
    rw [hmem] at hc
    simp at hc

/-- C6 witness: an existing tag name keeps its base declaration while a
new name is appended, and an existing definition key is preserved only
when the patch does not mention it while a fresh patch key is added. -/
theorem defs_tags_merge_amended_witness :
    alookup (mergeTags [("Assets", "a")] [("Assets", "b"), ("New", "c")]) "Assets" =
      some "a" ∧
    ("New", "c") ∈ mergeTags [("Assets", "a")] [("Assets", "b"), ("New", "c")] ∧
    alookup (addDefs [("x", 5)] [("y", 7)]) "x" = some 5 ∧
    alookup (addDefs [("x", 5)] [("y", 7)]) "y" = some 7 :=
  ⟨(defs_tags_merge_amended [("Assets", "a")] [("Assets", "b"), ("New", "c")]
      [("x", 5)] [("y", 7)]).1 "Assets" (by decide),
   (defs_tags_merge_amended [("Assets", "a")] [("Assets", "b"), ("New", "c")]
      [("x", 5)] [("y", 7)]).2.1 ("New", "c") (by decide) (by decide),
   (defs_tags_merge_amended [("Assets", "a")] [("Assets", "b"), ("New", "c")]
      [("x", 5)] [("y", 7)]).2.2.1 "x" (by decide),
   (defs_tags_merge_amended [("Assets", "a")] [("Assets", "b"), ("New", "c")]
      [("x", 5)] [("y", 7)]).2.2.2 "y" 7 (by decide) (by decide)⟩

/-- C7 counterexample: an operation at an assets path that already has
the non-empty tags list ["Inventory"] is not left untouched — the display
fix appends the inferred default tag Assets to it. -/
theorem retag_nonempty_cex :
    fixDisplayPaths
      [("/api/v1/assets", [("get", (⟨some ["Inventory"], 0⟩ : Operation Nat))])] =
      [("/api/v1/assets", [("get", ⟨some ["Inventory", "Assets"], 0⟩)])] ∧
    fixDisplayPaths
      [("/api/v1/assets", [("get", (⟨some ["Inventory"], 0⟩ : Operation Nat))])] ≠
      [("/api/v1/assets", [("get", ⟨some ["Inventory"], 0⟩)])] := by
  decide

/-- C7 (amended): the display fix touches only operations at paths whose
string contains /assets or /settings; for those operations the uninterpreted
payload is never modified, a tags list already containing the inferred
default is left untouched, a missing or empty tags field is assigned the
singleton default, and a non-empty tags list lacking the default has the
default appended to it. -/
theorem retag_amended {α : Type} :
    (∀ ps : Paths (Operation α), ∀ p pd, (p, pd) ∈ ps →
      strContains p "/assets" = false → strContains p "/settings" = false →
      (p, pd) ∈ fixDisplayPaths ps) ∧
    (∀ (t : String) (op : Operation α), (retag t op).payload = op.payload) ∧
    (∀ (t : String) (l : List String) (op : Operation α),
      op.tags = some l → l.contains t = true → retag t op = op) ∧
    (∀ (t : String) (op : Operation α), op.tags = none →
      (retag t op).tags = some [t]) ∧
    (∀ (t : String) (l : List String) (op : Operation α),
      op.tags = some l → l.contains t = false → l ≠ [] →
      (retag t op).tags = some (l ++ [t])) := by
  refine ⟨?_, ?_, ?_, ?_, ?_⟩
  · intro ps p pd hm h1 h2
    unfold fixDisplayPaths
    exact mem_map_id_of _ ps (p, pd) hm (by simp [h1, h2])
  · intro t op
    obtain ⟨tg, pl⟩ := op
    cases tg with
    | none => rfl
    | some l =>
      simp only [retag]
      split
      · rfl
      · split <;> rfl
  · intro t l op h hc
    have hc2 : t ∈ l := by simpa using hc
    simp [retag, h, hc2]
  · intro t op h
    simp [retag, h]
  · intro t l op h hc hne
    have hc2 : t ∉ l := by simpa using hc
    simp [retag, h, hc2, hne]

/-- C7 witness: an operation at a path matching neither substring passes
through, a tags list already holding Assets is untouched, a missing tags
field becomes the singleton, and a non-empty foreign tags list gets
Assets appended. -/
theorem retag_amended_witness :
    ("/x", [("get", (⟨some ["T"], 3⟩ : Operation Nat))]) ∈
      fixDisplayPaths [("/x", [("get", (⟨some ["T"], 3⟩ : Operation Nat))])] ∧
    retag "Assets" (⟨some ["Assets"], 5⟩ : Operation Nat) = ⟨some ["Assets"], 5⟩ ∧
    (retag "Assets" (⟨none, 5⟩ : Operation Nat)).tags = some ["Assets"] ∧
    (retag "Assets" (⟨some ["T"], 5⟩ : Operation Nat)).tags = some ["T", "Assets"] :=
  ⟨(retag_amended (α := Nat)).1 [("/x", [("get", ⟨some ["T"], 3⟩)])] "/x"
      [("get", ⟨some ["T"], 3⟩)] (by decide) (by decide) (by decide),
   (retag_amended (α := Nat)).2.2.1 "Assets" ["Assets"] ⟨some ["Assets"], 5⟩ rfl (by decide),
   (retag_amended (α := Nat)).2.2.2.1 "Assets" ⟨none, 5⟩ rfl,
   (retag_amended (α := Nat)).2.2.2.2 "Assets" ["T"] ⟨some ["T"], 5⟩ rfl (by decide)
     (by decide)⟩

/-- C8: on a run that removes something, both cleanup scripts delete the
target paths from the loaded data first and only then dump that same data
to the timestamped backup file, so the backup content equals the already
modified document being written and differs from the prior version —
contrary to the backup-before-overwrite discipline (which the other
scripts of the repository do follow by copying before modification). -/
theorem backup_after_mutation_bug :
    cleanupSwaggerRun ([("/api/v1/settings/accounting", [("get", 0)]),
      ("/x", [("get", 1)])] : Paths Nat) =
      ⟨some [("/x", [("get", 1)])], some [("/x", [("get", 1)])], true⟩ ∧
    (cleanupSwaggerRun ([("/api/v1/settings/accounting", [("get", 0)]),
      ("/x", [("get", 1)])] : Paths Nat)).backupContent ≠
      some ([("/api/v1/settings/accounting", [("get", 0)]),
        ("/x", [("get", 1)])] : Paths Nat) ∧
    cleanupTaxRun ([("/api/v1/tax-accounts/all", [("get", 0)]),
      ("/y", [("get", 1)])] : Paths Nat) =
      ⟨some [("/y", [("get", 1)])], some [("/y", [("get", 1)])], true⟩ ∧
    (cleanupTaxRun ([("/api/v1/tax-accounts/all", [("get", 0)]),
      ("/y", [("get", 1)])] : Paths Nat)).backupContent ≠
      some ([("/api/v1/tax-accounts/all", [("get", 0)]),
        ("/y", [("get", 1)])] : Paths Nat) := by
  decide

/-- C9 counterexample: both the merge and the unused-endpoint prune modify
the info block of a document whose description is the plain string API —
merge appends its CRUD sentence and the prune appends its usage note — so
info is not an untouched pass-through field. -/
theorem info_changed_cex :
    (mergeSwaggerDoc (⟨[], [], [], some ⟨some "API", "i"⟩, "m"⟩ : SwaggerDoc Nat) []).1.info ≠
      some ⟨some "API", "i"⟩ ∧
    (removeUnusedDoc "2025-01-01"
      (⟨[], [], [], some ⟨some "API", "i"⟩, "m"⟩ : SwaggerDoc Nat) []).1.info ≠
      some ⟨some "API", "i"⟩ := by
  decide

/-- C9 (amended): merge and prune leave the uninterpreted top-level remainder and
the dictionaries they do not target unchanged — merge keeps definitions
and the remainder, prune keeps tags, definitions and the remainder — but
the info block is not passed through: merge appends the CRUD sentence to
a description lacking the marker, and prune always appends its usage note
to the (possibly freshly created) description. -/
theorem metadata_frame_amended {α : Type} (doc : SwaggerDoc α) (patch : Paths α)
    (today : String) (targets : List String) :
    ((mergeSwaggerDoc doc patch).1.meta = doc.meta) ∧
    ((mergeSwaggerDoc doc patch).1.definitions = doc.definitions) ∧
    ((removeUnusedDoc today doc targets).1.meta = doc.meta) ∧
    ((removeUnusedDoc today doc targets).1.tags = doc.tags) ∧
    ((removeUnusedDoc today doc targets).1.definitions = doc.definitions) ∧
    (∀ d r, doc.info = some ⟨some d, r⟩ → strContains d crudMarker = false →
      (mergeSwaggerDoc doc patch).1.info = some ⟨some (d ++ crudNote), r⟩) ∧
    (∀ d r, doc.info = some ⟨some d, r⟩ →
      (removeUnusedDoc today doc targets).1.info =
        some ⟨some (d ++ usageNote today), r⟩) := by
  refine ⟨rfl, rfl, rfl, rfl, rfl, ?_, ?_⟩
  · intro d r h hm
    simp [mergeSwaggerDoc, mergeInfo, h, hm]
  · intro d r h
    simp [removeUnusedDoc, h]

/-- C9 witness: a document with description X and no marker gets the CRUD
sentence appended by merge and the usage note appended by the prune. -/
theorem metadata_frame_amended_witness :
    (mergeSwaggerDoc (⟨[], [], [], some ⟨some "X", "i"⟩, "m"⟩ : SwaggerDoc Nat) []).1.info =
      some ⟨some ("X" ++ crudNote), "i"⟩ ∧
    (removeUnusedDoc "2025-01-01"
      (⟨[], [], [], some ⟨some "X", "i"⟩, "m"⟩ : SwaggerDoc Nat) []).1.info =
      some ⟨some ("X" ++ usageNote "2025-01-01"), "i"⟩ :=
  ⟨(metadata_frame_amended (⟨[], [], [], some ⟨some "X", "i"⟩, "m"⟩ : SwaggerDoc Nat)
      [] "2025-01-01" []).2.2.2.2.2.1 "X" "i" rfl (by decide),
   (metadata_frame_amended (⟨[], [], [], some ⟨some "X", "i"⟩, "m"⟩ : SwaggerDoc Nat)
      [] "2025-01-01" []).2.2.2.2.2.2 "X" "i" rfl⟩

/-- C10: when no removal or rewrite target matches the document, each of
the three runs writes nothing — no backup file and no output write — and
still reports success. -/
theorem nomatch_no_write {α : Type} (ps : Paths α) :
    (acontains ps "/api/v1/settings/accounting" = false →
      cleanupSwaggerRun ps = ⟨none, none, true⟩) ∧
    ((∀ t ∈ invalidTaxList, acontains ps t = false) →
      cleanupTaxRun ps = ⟨none, none, true⟩) ∧
    ((∀ e ∈ ps, hasPre wrongPre e.1 = false) →
      fixTaxRun ps = ⟨none, none, true⟩) := by
  refine ⟨?_, ?_, ?_⟩
  · intro h
    have habs : ∀ t ∈ invalidList, acontains ps t = false := by
      intro t ht
      have ht2 : t = "/api/v1/settings/accounting" := by simpa [invalidList] using ht
      rw [ht2]
      exact h
    unfold cleanupSwaggerRun
    rw [cleanupLoop_absent invalidList ps habs]
    rfl
  · intro h
    unfold cleanupTaxRun
    rw [cleanupLoop_absent invalidTaxList ps h]
    rfl
  · intro h
    have hf : ps.filter (fun e => hasPre wrongPre e.1) = [] := by
      induction ps with
      | nil => rfl
      | cons hd t ih =>
        rw [List.filter_cons]
        rw [if_neg (by simp [h hd (List.mem_cons_self _ _)])]
        exact ih (fun e he => h e (List.mem_cons_of_mem _ he))
    unfold fixTaxRun
    rw [hf]
    rfl

/-- C10 witness: a document matching no target leaves each run with no
backup, no write and a success report. -/
theorem nomatch_no_write_witness :
    cleanupSwaggerRun [("/keep", [("get", 0)])] = ⟨none, none, true⟩ ∧
    cleanupTaxRun [("/keep", [("get", 0)])] = ⟨none, none, true⟩ ∧
    fixTaxRun [("/keep", [("get", 0)])] = ⟨none, none, true⟩ :=
  ⟨(nomatch_no_write [("/keep", [("get", 0)])]).1 (by decide),
   (nomatch_no_write [("/keep", [("get", 0)])]).2.1 (by decide),
   (nomatch_no_write [("/keep", [("get", 0)])]).2.2 (by decide)⟩

end CMS
